import Mathlib

/-!
Formal model of `MarinaBillingSystem.c`, a marina inventory and billing
program: an in-memory store of boat records (bounded array of owning
pointers, modelled as a list), a CSV text codec built on `sscanf`/`fprintf`,
case-insensitive lookup and ordering, and the fee/payment arithmetic.

Modelling conventions:
  * C strings are `List Char` (NUL-free in every reachable state; the
    comparison function still mirrors the C NUL handling faithfully).
  * The C `double` currency amounts are modelled as exact rationals `ℚ`;
    all amounts the program manipulates are currency values, and every claim
    below is about exact decimal arithmetic, not binary-float rounding.
  * `qsort` with the `boatCompareByName` comparator is modelled by a
    comparator-correct sort (`List.insertionSort` on the comparator's
    `≤ 0` relation); the C standard specifies a qsort result only up to
    the order of comparison-equal elements.
  * `sscanf(line, " %[^,],%d,%[^,],%[^,],%lf", ...)` is modelled directive
    by directive; for `%lf` the decimal fixed-point forms (sign, digits,
    optional fraction) are modelled, which covers every string the program
    itself writes (exponent/hex/inf forms are never produced by `%.2f`).
  * File I/O is abstracted to the text contents: `saveToCSV` produces the
    written character stream, `loadFromCSV` consumes one (the C code splits
    it into lines exactly as `fgets` does, for lines under the 512-byte
    buffer).
-/

namespace Marina

/-- C `tolower` in the default locale: ASCII upper-case letters map to
lower case, everything else is unchanged. -/
def tolowerChar (c : Char) : Char :=
  if 'A' ≤ c ∧ c ≤ 'Z' then Char.ofNat (c.toNat + 32) else c

/-- `caseInsensitiveCompare` from the source: character-by-character
comparison of the `tolower`-folded strings, returning -1/0/1; a string end
behaves as the NUL terminator (which folds to itself). -/
def caseInsensitiveCompare : List Char → List Char → Int
  | [], [] => 0
  | [], b :: _ => if (tolowerChar b).toNat = 0 then 0 else -1
  | a :: _, [] => if (tolowerChar a).toNat = 0 then 0 else 1
  | a :: as, b :: bs =>
    let ca := (tolowerChar a).toNat
    let cb := (tolowerChar b).toNat
    if ca < cb then -1
    else if cb < ca then 1
    else if ca = 0 then 0
    else caseInsensitiveCompare as bs

/-- `LocationType` enumeration from the source. -/
inductive LocationType where
  | SLIP
  | LAND
  | TRAILOR
  | STORAGE
  deriving DecidableEq, Repr

/-- The `LocationDetail` union; in every boat the program builds, the
constructor agrees with the boat's `LocationType` (the C code only ever
reads the union member selected by `locType`). -/
inductive LocationDetail where
  | slipNumber (n : Int)
  | bayLetter (c : Char)
  | licenseTag (tag : List Char)
  | storageNum (n : Int)
  deriving DecidableEq, Repr

/-- The `Boat` struct. -/
structure Boat where
  name : List Char
  length : Int
  locType : LocationType
  detail : LocationDetail
  amountOwed : ℚ
  deriving DecidableEq, Repr

/-- The `BoatManager` struct: the active prefix `boats[0..numBoats)` of the
fixed array, as a list; `numBoats` is the list length. -/
structure BoatManager where
  boats : List Boat
  deriving DecidableEq, Repr

/-- `MAX_BOATS` capacity bound. -/
def MAX_BOATS : Nat := 120

/-- `MAX_NAME` buffer size (names are truncated to 127 characters). -/
def MAX_NAME : Nat := 128

/-- `MONTH_SLIP` per-foot monthly rate. -/
def MONTH_SLIP : ℚ := 12.50

/-- `MONTH_LAND` per-foot monthly rate. -/
def MONTH_LAND : ℚ := 14.00

/-- `MONTH_TRAILOR` per-foot monthly rate. -/
def MONTH_TRAILOR : ℚ := 25.00

/-- `MONTH_STORAGE` per-foot monthly rate. -/
def MONTH_STORAGE : ℚ := 11.20

/-- `parseLocationType` from the source: lower-case the first 31 characters
of the word, compare with the four keywords, and default to `SLIP` for
anything unrecognized. -/
def parseLocationType (locStr : List Char) : LocationType :=
  let lower := (locStr.take 31).map tolowerChar
  if lower = ['s', 'l', 'i', 'p'] then .SLIP
  else if lower = ['l', 'a', 'n', 'd'] then .LAND
  else if lower = ['t', 'r', 'a', 'i', 'l', 'o', 'r'] then .TRAILOR
  else if lower = ['s', 't', 'o', 'r', 'a', 'g', 'e'] then .STORAGE
  else .SLIP

/-- The white-space class of C `isspace` in the default locale. -/
def isSpaceC (c : Char) : Bool :=
  c = ' ' || c = '\t' || c = '\n' || c = '\x0b' || c = '\x0c' || c = '\r'

/-- ASCII decimal digit test. -/
def isDigitC (c : Char) : Bool :=
  48 ≤ c.toNat && c.toNat ≤ 57

/-- Consume a maximal run of decimal digits, accumulating their value
(the digit loop shared by `atoi`, `%d` and `%lf`). -/
def parseUDigits : List Char → Nat → Nat × List Char
  | c :: cs, acc =>
    if isDigitC c then parseUDigits cs (acc * 10 + (c.toNat - 48)) else (acc, c :: cs)
  | [], acc => (acc, [])

/-- An optional leading sign: the sign factor and the rest of the input. -/
def scanSign (s : List Char) : Int × List Char :=
  match s with
  | c :: r => if c = '-' then (-1, r) else if c = '+' then (1, r) else (1, c :: r)
  | [] => (1, [])

/-- C `atoi`: skip white space, read an optional sign and then a digit run;
text with no leading number yields 0. -/
def atoi (s : List Char) : Int :=
  let sr := scanSign (s.dropWhile isSpaceC)
  sr.1 * ((parseUDigits sr.2 0).1 : Int)

/-- `createBoat` from the source: copy the name (truncated to
`MAX_NAME - 1` characters) and initialize the detail union according to the
location type (`atoi` for slip/storage numbers, first character for the bay
letter, 31-character truncation for the license tag). -/
def createBoat (name : List Char) (length : Int) (locType : LocationType)
    (detailStr : List Char) (owed : ℚ) : Boat :=
  { name := name.take (MAX_NAME - 1)
    length := length
    locType := locType
    amountOwed := owed
    detail :=
      match locType with
      | .SLIP => .slipNumber (atoi detailStr)
      | .LAND => .bayLetter (detailStr.headD (Char.ofNat 0))
      | .TRAILOR => .licenseTag (detailStr.take 31)
      | .STORAGE => .storageNum (atoi detailStr) }

/-- The comparator relation sorted output satisfies: the qsort comparator
`boatCompareByName` (which delegates to `caseInsensitiveCompare` on the
names) reports "not greater". -/
def boatLe (a b : Boat) : Prop :=
  caseInsensitiveCompare a.name b.name ≤ 0

instance : DecidableRel boatLe :=
  fun a b => inferInstanceAs (Decidable (caseInsensitiveCompare a.name b.name ≤ 0))

/-- `sortBoatsByName`: sort the active boats with the name comparator. -/
def sortBoatsByName (boats : List Boat) : List Boat :=
  List.insertionSort boatLe boats

/-- `findBoatIndex`: linear scan for the first case-insensitive name match,
`-1` (here `none`) when absent. -/
def findIdxFrom (boats : List Boat) (name : List Char) : Option Nat :=
  match boats with
  | [] => none
  | b :: rest =>
    if caseInsensitiveCompare b.name name = 0 then some 0
    else (findIdxFrom rest name).map (· + 1)

/-- `findBoatIndex` on the manager. -/
def findBoatIndex (m : BoatManager) (name : List Char) : Option Nat :=
  findIdxFrom m.boats name

/-- Outcome of the add-boat core (after the CLI layer has read a line). -/
inductive AddResult where
  | full
  | added
  deriving DecidableEq, Repr

/-- The store mutation of `addBoat` once the CSV input has been parsed:
reject when `numBoats >= MAX_BOATS`, otherwise append and re-sort. -/
def addBoat (m : BoatManager) (b : Boat) : AddResult × BoatManager :=
  if m.boats.length ≥ MAX_BOATS then (.full, m)
  else (.added, ⟨sortBoatsByName (m.boats ++ [b])⟩)

/-- Outcome of `removeBoat`. -/
inductive RemoveResult where
  | notFound
  | removed
  deriving DecidableEq, Repr

/-- The store mutation of `removeBoat`: look the name up, delete that slot
(shifting the rest left) and re-sort; report when the name is absent. -/
def removeBoat (m : BoatManager) (name : List Char) : RemoveResult × BoatManager :=
  match findBoatIndex m name with
  | none => (.notFound, m)
  | some idx => (.removed, ⟨sortBoatsByName (m.boats.eraseIdx idx)⟩)

/-- Outcome of `acceptPayment`. -/
inductive PaymentResult where
  | notFound
  | overpayment
  | paid
  deriving DecidableEq, Repr

/-- The store mutation of `acceptPayment`: look the name up, refuse a
payment strictly greater than the owed amount, otherwise subtract it in
place.  (The second `none` branch is unreachable: `findBoatIndex` only
returns indices below the list length.) -/
def acceptPayment (m : BoatManager) (name : List Char) (payment : ℚ) :
    PaymentResult × BoatManager :=
  match findBoatIndex m name with
  | none => (.notFound, m)
  | some idx =>
    match m.boats[idx]? with
    | none => (.notFound, m)
    | some b =>
      if payment > b.amountOwed then (.overpayment, m)
      else (.paid, ⟨m.boats.set idx { b with amountOwed := b.amountOwed - payment }⟩)

/-- `monthlyUpdate`: add the per-location monthly charge `rate * length`
to every boat's balance. -/
def monthlyUpdate (m : BoatManager) : BoatManager :=
  ⟨m.boats.map (fun b =>
    let charge : ℚ :=
      match b.locType with
      | .SLIP => MONTH_SLIP * b.length
      | .LAND => MONTH_LAND * b.length
      | .TRAILOR => MONTH_TRAILOR * b.length
      | .STORAGE => MONTH_STORAGE * b.length
    { b with amountOwed := b.amountOwed + charge })⟩

/-! ## The text codec: `fprintf` rendering and `sscanf` parsing -/

/-- ASCII character for a decimal digit value. -/
def digitChar : Nat → Char
  | 0 => '0'
  | 1 => '1'
  | 2 => '2'
  | 3 => '3'
  | 4 => '4'
  | 5 => '5'
  | 6 => '6'
  | 7 => '7'
  | 8 => '8'
  | _ => '9'

/-- Decimal rendering of a natural number, most significant digit first
(the digit stream `printf %d` emits for a non-negative value). -/
def natToCharsAux : Nat → List Char → List Char
  | n, acc =>
    let acc' := digitChar (n % 10) :: acc
    if n < 10 then acc' else natToCharsAux (n / 10) acc'
  termination_by n => n
  decreasing_by exact Nat.div_lt_self (by omega) (by omega)

/-- Decimal rendering of a natural number. -/
def natToChars (n : Nat) : List Char :=
  natToCharsAux n []

/-- `printf %d` rendering of an integer. -/
def intToChars (n : Int) : List Char :=
  if n < 0 then '-' :: natToChars n.natAbs else natToChars n.natAbs

/-- Two-digit field with a leading zero, for the cents of `%.2f`. -/
def pad2 (n : Nat) : List Char :=
  if n < 10 then '0' :: natToChars n else natToChars n

/-- `printf %.2f`: round the amount to a whole number of cents (currency
values carry no finer precision, so no tie ever arises for the amounts the
program stores) and print `units.cents` with an optional leading minus. -/
def formatFixed2 (q : ℚ) : List Char :=
  let cents : Int := round (q * 100)
  let body := natToChars (cents.natAbs / 100) ++ '.' :: pad2 (cents.natAbs % 100)
  if q < 0 then '-' :: body else body

/-- Read the slip number the `saveToCSV` switch prints in the `SLIP` case
(`b->detail.slipNumber`; any other constructor would be a type-punned union
read the program never performs). -/
def detailSlipNum : LocationDetail → Int
  | .slipNumber n => n
  | _ => 0

/-- Read `b->detail.bayLetter` (see `detailSlipNum` about mismatches). -/
def detailBay : LocationDetail → Char
  | .bayLetter c => c
  | _ => Char.ofNat 0

/-- Read `b->detail.licenseTag` (see `detailSlipNum` about mismatches). -/
def detailTag : LocationDetail → List Char
  | .licenseTag tag => tag
  | _ => []

/-- Read `b->detail.storageNum` (see `detailSlipNum` about mismatches). -/
def detailStorageNum : LocationDetail → Int
  | .storageNum n => n
  | _ => 0

/-- The line `saveToCSV` prints for one boat (without the trailing
newline): `name,length,kind,detail,owed`, with the kind word lower case and
the owed amount in `%.2f` format. -/
def serializeBoat (b : Boat) : List Char :=
  let kindDetail : List Char :=
    match b.locType with
    | .SLIP => ['s', 'l', 'i', 'p', ','] ++ intToChars (detailSlipNum b.detail)
    | .LAND => ['l', 'a', 'n', 'd', ','] ++ [detailBay b.detail]
    | .TRAILOR => ['t', 'r', 'a', 'i', 'l', 'o', 'r', ','] ++ detailTag b.detail
    | .STORAGE => ['s', 't', 'o', 'r', 'a', 'g', 'e', ','] ++ intToChars (detailStorageNum b.detail)
  b.name ++ ',' :: (intToChars b.length ++ ',' :: (kindDetail ++ ',' :: formatFixed2 b.amountOwed))

/-- `saveToCSV`: the character stream written to the file — one serialized
line per boat, in the store's current order, each ended by a newline. -/
def saveToCSV (m : BoatManager) : List Char :=
  (m.boats.map (fun b => serializeBoat b ++ ['\n'])).foldr (· ++ ·) []

/-- The `%[^,]` directive: a non-empty maximal run of non-comma characters
(no white-space skip). -/
def scanField (s : List Char) : Option (List Char × List Char) :=
  let f := s.takeWhile (fun c => c ≠ ',')
  if f.isEmpty then none else some (f, s.drop f.length)

/-- A literal `,` in the `sscanf` format. -/
def expectComma : List Char → Option (List Char)
  | ',' :: r => some r
  | _ => none

/-- An unsigned digit run for `%d`/`%lf`: fails without a leading digit. -/
def scanUInt (s : List Char) : Option (Nat × List Char) :=
  match s with
  | c :: cs => if isDigitC c then some (parseUDigits cs (c.toNat - 48)) else none
  | [] => none

/-- The `%d` directive: skip white space, optional sign, then digits. -/
def scanInt (s : List Char) : Option (Int × List Char) :=
  let sr := scanSign (s.dropWhile isSpaceC)
  (scanUInt sr.2).map (fun p => (sr.1 * (p.1 : Int), p.2))

/-- Value of a digit run (most significant first). -/
def digitsVal (ds : List Char) : Nat :=
  ds.foldl (fun a c => a * 10 + (c.toNat - 48)) 0

/-- An optional `.`-prefixed fraction run: its value and digit count, and
the rest of the input. -/
def scanFrac : List Char → (Nat × Nat) × List Char
  | '.' :: r =>
    let fp := r.takeWhile isDigitC
    ((digitsVal fp, fp.length), r.drop fp.length)
  | s => ((0, 0), s)

/-- The `%lf` directive on the decimal fixed-point forms: skip white space,
optional sign, digits with an optional `.` fraction; at least one digit
must appear on one side of the point. -/
def scanLf (s : List Char) : Option (ℚ × List Char) :=
  let sr := scanSign (s.dropWhile isSpaceC)
  let ip := sr.2.takeWhile isDigitC
  let fr := scanFrac (sr.2.drop ip.length)
  if ip.isEmpty ∧ fr.1.2 = 0 then none
  else some ((sr.1 : ℚ) * ((digitsVal ip : ℚ) + (fr.1.1 : ℚ) / (10 : ℚ) ^ fr.1.2), fr.2)

/-- The whole `sscanf(line, " %[^,],%d,%[^,],%[^,],%lf", ...)` call:
`some` exactly when all five fields convert (return value 5). -/
def parseLine (line : List Char) :
    Option (List Char × Int × List Char × List Char × ℚ) := do
  let (nm, r1) ← scanField (line.dropWhile isSpaceC)
  let r2 ← expectComma r1
  let (len, r3) ← scanInt r2
  let r4 ← expectComma r3
  let (loc, r5) ← scanField r4
  let r6 ← expectComma r5
  let (det, r7) ← scanField r6
  let r8 ← expectComma r7
  let (ow, _) ← scanLf r8
  pure (nm, len, loc, det, ow)

/-- One iteration of the `loadFromCSV` loop body on a line: a successful
parse produces the boat `createBoat` builds; a failed parse produces
nothing (the line is skipped). -/
def parseBoatLine (line : List Char) : Option Boat :=
  match parseLine line with
  | none => none
  | some (nm, len, loc, det, ow) => some (createBoat nm len (parseLocationType loc) det ow)

/-- Split a character stream into the lines `fgets` would deliver
(the content before each newline, plus the residue after the last one). -/
def splitLines (s : List Char) : List (List Char) :=
  match s with
  | [] => [[]]
  | '\n' :: rest => [] :: splitLines rest
  | c :: rest =>
    match splitLines rest with
    | [] => [[c]]
    | l :: ls => (c :: l) :: ls

/-- The `loadFromCSV` reading loop: parse each line, append each parsed
boat while the store is below `MAX_BOATS`, and discard boats (and
malformed lines) otherwise. -/
def loadCollect : List (List Char) → List Boat → List Boat
  | [], acc => acc
  | l :: ls, acc =>
    match parseBoatLine l with
    | none => loadCollect ls acc
    | some b =>
      if acc.length < MAX_BOATS then loadCollect ls (acc ++ [b])
      else loadCollect ls acc

/-- `loadFromCSV` on the file contents, starting (as `main` does) from an
empty manager: collect the parsed boats, then sort. -/
def loadFromCSV (text : List Char) : BoatManager :=
  ⟨sortBoatsByName (loadCollect (splitLines text) [])⟩

/-! ## Lemmas about the name comparator -/

theorem cic_nil_le (c : List Char) : caseInsensitiveCompare [] c ≤ 0 := by
  cases c <;> simp only [caseInsensitiveCompare] <;> (try split_ifs) <;> omega

theorem cic_nul_head_le {x : Char} (hx : (tolowerChar x).toNat = 0) (xs c : List Char) :
    caseInsensitiveCompare (x :: xs) c ≤ 0 := by
  cases c <;> simp only [caseInsensitiveCompare, hx] <;> (try split_ifs) <;> omega

theorem cic_swap (a : List Char) : ∀ b : List Char,
    caseInsensitiveCompare a b = - caseInsensitiveCompare b a := by
  induction a with
  | nil =>
    intro b
    cases b <;> simp only [caseInsensitiveCompare] <;> (try split_ifs) <;> omega
  | cons x xs ih =>
    intro b
    cases b with
    | nil => simp only [caseInsensitiveCompare]; split_ifs <;> omega
    | cons y ys =>
      simp only [caseInsensitiveCompare]
      split_ifs <;> first | omega | rw [ih ys]

theorem cic_trans : ∀ (a b c : List Char),
    caseInsensitiveCompare a b ≤ 0 → caseInsensitiveCompare b c ≤ 0 →
    caseInsensitiveCompare a c ≤ 0 := by
  intro a
  induction a with
  | nil => exact fun b c _ _ => cic_nil_le c
  | cons x xs ih =>
    intro b c h1 h2
    cases b with
    | nil =>
      have hx : (tolowerChar x).toNat = 0 := by
        by_contra hne
        simp only [caseInsensitiveCompare, if_neg hne] at h1
        omega
      exact cic_nul_head_le hx xs c
    | cons y ys =>
      cases c with
      | nil =>
        have hy : (tolowerChar y).toNat = 0 := by
          by_contra hne
          simp only [caseInsensitiveCompare, if_neg hne] at h2
          omega
        have hx : (tolowerChar x).toNat = 0 := by
          simp only [caseInsensitiveCompare, hy] at h1
          split_ifs at h1 <;> omega
        simp [caseInsensitiveCompare, hx]
      | cons z zs =>
        simp only [caseInsensitiveCompare] at h1 h2 ⊢
        split_ifs at h1 h2 ⊢ <;> try omega
        all_goals exact ih ys zs h1 h2

instance : IsTrans Boat boatLe :=
  ⟨fun a b c h1 h2 => cic_trans a.name b.name c.name h1 h2⟩

instance : IsTotal Boat boatLe := by
  refine ⟨fun a b => ?_⟩
  by_cases h : caseInsensitiveCompare a.name b.name ≤ 0
  · exact Or.inl h
  · refine Or.inr ?_
    unfold boatLe
    rw [cic_swap]
    omega

/-- The sorted view is a permutation of the stored boats. -/
theorem sortBoats_perm (l : List Boat) : (sortBoatsByName l).Perm l :=
  List.perm_insertionSort boatLe l

/-- The sorted view is non-decreasing under the comparator. -/
theorem sortBoats_sorted (l : List Boat) : List.Sorted boatLe (sortBoatsByName l) :=
  List.sorted_insertionSort boatLe l

/-! ## Lemmas about `findBoatIndex` -/

theorem findIdxFrom_eq_none_iff (bs : List Boat) (name : List Char) :
    findIdxFrom bs name = none ↔ ∀ b ∈ bs, caseInsensitiveCompare b.name name ≠ 0 := by
  induction bs with
  | nil => simp [findIdxFrom]
  | cons b rest ih =>
    simp only [findIdxFrom]
    by_cases h : caseInsensitiveCompare b.name name = 0
    · simp [h]
    · simp [h, Option.map_eq_none', ih]

theorem findIdxFrom_eq_some (bs : List Boat) (name : List Char) :
    ∀ i, findIdxFrom bs name = some i →
      ∃ b, bs[i]? = some b ∧ caseInsensitiveCompare b.name name = 0 ∧
        ∀ j, j < i → ∀ b', bs[j]? = some b' → caseInsensitiveCompare b'.name name ≠ 0 := by
  induction bs with
  | nil => intro i h; simp [findIdxFrom] at h
  | cons b rest ih =>
    intro i h
    simp only [findIdxFrom] at h
    by_cases hb : caseInsensitiveCompare b.name name = 0
    · rw [if_pos hb] at h
      obtain rfl : i = 0 := by simpa using h.symm
      exact ⟨b, by simp, hb, fun j hj => absurd hj (by omega)⟩
    · rw [if_neg hb] at h
      obtain ⟨i', hi', rfl⟩ := Option.map_eq_some'.mp h
      obtain ⟨b', hb', hmatch, hfirst⟩ := ih i' hi'
      refine ⟨b', by simpa using hb', hmatch, ?_⟩
      intro j hj b'' hb''
      cases j with
      | zero =>
        have hbb : b = b'' := by simpa using hb''
        rw [← hbb]
        exact hb
      | succ j' =>
        exact hfirst j' (by omega) b'' (by simpa using hb'')

/-! ## Character class facts -/

theorem isSpaceC_lt (c : Char) (h : isSpaceC c = true) : c.toNat < 48 := by
  simp only [isSpaceC, Bool.or_eq_true, decide_eq_true_eq] at h
  rcases h with ((((h | h) | h) | h) | h) | h <;> subst h <;> decide

theorem digit_bounds {c : Char} (h : isDigitC c = true) : 48 ≤ c.toNat ∧ c.toNat ≤ 57 := by
  simpa [isDigitC, Bool.and_eq_true, decide_eq_true_eq] using h

theorem digit_not_space {c : Char} (h : isDigitC c = true) : isSpaceC c = false := by
  cases hs : isSpaceC c with
  | false => rfl
  | true => exact absurd (digit_bounds h).1 (by have := isSpaceC_lt c hs; omega)

theorem digit_ne_comma {c : Char} (h : isDigitC c = true) : c ≠ ',' := by
  rintro rfl
  exact absurd h (by decide)

theorem digit_ne_newline {c : Char} (h : isDigitC c = true) : c ≠ '\n' := by
  rintro rfl
  exact absurd h (by decide)

theorem digit_ne_minus {c : Char} (h : isDigitC c = true) : c ≠ '-' := by
  rintro rfl
  exact absurd h (by decide)

theorem digit_ne_plus {c : Char} (h : isDigitC c = true) : c ≠ '+' := by
  rintro rfl
  exact absurd h (by decide)

theorem digit_ne_dot {c : Char} (h : isDigitC c = true) : c ≠ '.' := by
  rintro rfl
  exact absurd h (by decide)

/-! ## Decimal rendering and its parse inverse -/

theorem digitChar_toNat {d : Nat} (h : d < 10) : (digitChar d).toNat = 48 + d := by
  interval_cases d <;> rfl

theorem isDigitC_digitChar {d : Nat} (h : d < 10) : isDigitC (digitChar d) = true := by
  interval_cases d <;> rfl

theorem natToCharsAux_append (n : Nat) : ∀ acc : List Char,
    natToCharsAux n acc = natToCharsAux n [] ++ acc := by
  induction n using Nat.strong_induction_on with
  | _ n ih =>
    intro acc
    conv_lhs => rw [natToCharsAux]
    conv_rhs => rw [natToCharsAux]
    by_cases h : n < 10
    · simp [h]
    · have hd : n / 10 < n := Nat.div_lt_self (by omega) (by omega)
      simp only [h, if_false]
      rw [ih _ hd (digitChar (n % 10) :: acc), ih _ hd (digitChar (n % 10) :: [])]
      simp

/-- One-step unfolding of `natToChars` with the accumulator eliminated. -/
theorem natToChars_eq (n : Nat) : natToChars n =
    if n < 10 then [digitChar (n % 10)]
    else natToChars (n / 10) ++ [digitChar (n % 10)] := by
  unfold natToChars
  conv_lhs => rw [natToCharsAux]
  by_cases h : n < 10
  · simp [h]
  · simp only [h, if_false]
    rw [natToCharsAux_append]

theorem natToChars_ne_nil (n : Nat) : natToChars n ≠ [] := by
  rw [natToChars_eq]
  split_ifs <;> simp

theorem natToChars_all_digits (n : Nat) : ∀ c ∈ natToChars n, isDigitC c = true := by
  induction n using Nat.strong_induction_on with
  | _ n ih =>
    rw [natToChars_eq]
    by_cases h : n < 10
    · simp only [h, if_true, List.mem_singleton]
      rintro c rfl
      exact isDigitC_digitChar (Nat.mod_lt _ (by omega))
    · have hd : n / 10 < n := Nat.div_lt_self (by omega) (by omega)
      simp only [h, if_false, List.mem_append, List.mem_singleton]
      rintro c (hc | rfl)
      · exact ih _ hd c hc
      · exact isDigitC_digitChar (Nat.mod_lt _ (by omega))

theorem foldl_digits_natToChars (n : Nat) : ∀ acc : Nat,
    (natToChars n).foldl (fun a c => a * 10 + (c.toNat - 48)) acc
      = acc * 10 ^ (natToChars n).length + n := by
  induction n using Nat.strong_induction_on with
  | _ n ih =>
    intro acc
    rw [natToChars_eq]
    by_cases h : n < 10
    · simp only [h, if_true, List.foldl_cons, List.foldl_nil, List.length_singleton]
      rw [digitChar_toNat (Nat.mod_lt _ (by omega))]
      have : n % 10 = n := Nat.mod_eq_of_lt h
      omega
    · have hd : n / 10 < n := Nat.div_lt_self (by omega) (by omega)
      simp only [h, if_false, List.foldl_append, List.foldl_cons, List.foldl_nil,
        List.length_append, List.length_singleton]
      rw [ih _ hd acc, digitChar_toNat (Nat.mod_lt _ (by omega))]
      have h48 : 48 + n % 10 - 48 = n % 10 := by omega
      rw [h48, pow_succ]
      have hn : n / 10 * 10 + n % 10 = n := by omega
      calc (acc * 10 ^ (natToChars (n / 10)).length + n / 10) * 10 + n % 10
          = acc * (10 ^ (natToChars (n / 10)).length * 10) + (n / 10 * 10 + n % 10) := by ring
        _ = acc * (10 ^ (natToChars (n / 10)).length * 10) + n := by rw [hn]

theorem digitsVal_natToChars (n : Nat) : digitsVal (natToChars n) = n := by
  unfold digitsVal
  rw [foldl_digits_natToChars]
  simp

/-- `parseUDigits` consumes exactly a leading all-digit block. -/
theorem parseUDigits_append (ds : List Char) (hds : ∀ c ∈ ds, isDigitC c = true) :
    ∀ (rest : List Char) (acc : Nat), (∀ c, rest.head? = some c → isDigitC c = false) →
    parseUDigits (ds ++ rest) acc
      = (ds.foldl (fun a c => a * 10 + (c.toNat - 48)) acc, rest) := by
  induction ds with
  | nil =>
    intro rest acc hrest
    cases rest with
    | nil => rfl
    | cons c cs =>
      have : isDigitC c = false := hrest c rfl
      simp [parseUDigits, this]
  | cons d ds ih =>
    intro rest acc hrest
    have hd : isDigitC d = true := hds d (by simp)
    simp only [List.cons_append, parseUDigits, hd, if_true, List.foldl_cons]
    exact ih (fun c hc => hds c (by simp [hc])) rest _ hrest

theorem parseUDigits_nodigit (s : List Char) (acc : Nat)
    (h : ∀ c, s.head? = some c → isDigitC c = false) :
    parseUDigits s acc = (acc, s) := by
  cases s with
  | nil => rfl
  | cons c cs => simp [parseUDigits, h c rfl]

theorem scanUInt_natToChars (n : Nat) (rest : List Char)
    (hrest : ∀ c, rest.head? = some c → isDigitC c = false) :
    scanUInt (natToChars n ++ rest) = some (n, rest) := by
  cases hnc : natToChars n with
  | nil => exact absurd hnc (natToChars_ne_nil n)
  | cons d ds =>
    have hall : ∀ c ∈ natToChars n, isDigitC c = true := natToChars_all_digits n
    have hd : isDigitC d = true := hall d (by rw [hnc]; simp)
    simp only [List.cons_append, scanUInt, hd, if_true]
    have hds : ∀ c ∈ ds, isDigitC c = true := fun c hc => hall c (by rw [hnc]; simp [hc])
    rw [parseUDigits_append ds hds rest _ hrest]
    have hv : ds.foldl (fun a c => a * 10 + (c.toNat - 48)) (d.toNat - 48) = n := by
      have hdv : digitsVal (natToChars n) = n := digitsVal_natToChars n
      rw [hnc] at hdv
      simpa [digitsVal] using hdv
    rw [hv]

/-! ## Scanner inverse lemmas -/

theorem takeWhile_append_sat {p : Char → Bool} : ∀ (f r : List Char),
    (∀ c ∈ f, p c = true) → (∀ c, r.head? = some c → p c = false) →
    (f ++ r).takeWhile p = f := by
  intro f
  induction f with
  | nil =>
    intro r _ hr
    cases r with
    | nil => rfl
    | cons c cs => simp [List.takeWhile_cons, hr c rfl]
  | cons x xs ih =>
    intro r hf hr
    have hx : p x = true := hf x (by simp)
    simp only [List.cons_append, List.takeWhile_cons, hx, if_true]
    rw [ih r (fun c hc => hf c (by simp [hc])) hr]

theorem takeWhile_of_all {p : Char → Bool} : ∀ l : List Char,
    (∀ c ∈ l, p c = true) → l.takeWhile p = l := by
  intro l
  induction l with
  | nil => intro _; rfl
  | cons x xs ih =>
    intro hl
    simp only [List.takeWhile_cons, hl x (by simp), if_true]
    rw [ih (fun c hc => hl c (by simp [hc]))]

theorem drop_append_len {α : Type} (f r : List α) : (f ++ r).drop f.length = r := by
  simp

theorem scanField_append (f : List Char) (rest : List Char) (hne : f ≠ [])
    (hf : ∀ c ∈ f, c ≠ ',') :
    scanField (f ++ ',' :: rest) = some (f, ',' :: rest) := by
  have htw : (f ++ ',' :: rest).takeWhile (fun c => c ≠ ',') = f := by
    apply takeWhile_append_sat
    · intro c hc
      simpa using hf c hc
    · intro c hc
      simp only [List.head?_cons, Option.some.injEq] at hc
      simp [← hc]
  unfold scanField
  rw [htw]
  have : f.isEmpty = false := by
    cases f with
    | nil => exact absurd rfl hne
    | cons a l => rfl
  simp only [this, Bool.false_eq_true, if_false]
  rw [drop_append_len]

theorem dropWhile_cons_false {p : Char → Bool} {x : Char} (xs : List Char)
    (hx : p x = false) : (x :: xs).dropWhile p = x :: xs := by
  simp [List.dropWhile_cons, hx]

/-- After white-space skipping and the sign, `%d`-style input rendered by
`intToChars` presents the digits of the absolute value. -/
theorem scanSign_intToChars (z : Int) (rest : List Char) :
    scanSign ((intToChars z ++ rest).dropWhile isSpaceC)
      = (if z < 0 then (-1 : Int) else 1, natToChars z.natAbs ++ rest) := by
  unfold intToChars
  by_cases hz : z < 0
  · simp only [hz, if_true, List.cons_append]
    rw [dropWhile_cons_false _ (by decide)]
    rfl
  · simp only [hz, if_false]
    cases hnc : natToChars z.natAbs with
    | nil => exact absurd hnc (natToChars_ne_nil _)
    | cons d ds =>
      have hd : isDigitC d = true := natToChars_all_digits _ d (by rw [hnc]; simp)
      simp only [List.cons_append]
      rw [dropWhile_cons_false _ (digit_not_space hd)]
      simp only [scanSign]
      rw [if_neg (digit_ne_minus hd), if_neg (digit_ne_plus hd)]

theorem scanInt_append (z : Int) (rest : List Char)
    (hrest : ∀ c, rest.head? = some c → isDigitC c = false) :
    scanInt (intToChars z ++ rest) = some (z, rest) := by
  simp only [scanInt, scanSign_intToChars, scanUInt_natToChars _ _ hrest, Option.map_some']
  by_cases hz : z < 0 <;>
    simp only [hz, if_true, if_false, Option.some.injEq, Prod.mk.injEq, and_true, true_and,
      eq_self_iff_true] <;>
    omega

theorem atoi_intToChars (z : Int) : atoi (intToChars z) = z := by
  have h0 : intToChars z = intToChars z ++ [] := by simp
  rw [h0]
  simp only [atoi, scanSign_intToChars]
  rw [parseUDigits_append _ (natToChars_all_digits _) [] 0 (by intro c hc; simp at hc)]
  have hdv := digitsVal_natToChars z.natAbs
  unfold digitsVal at hdv
  dsimp only
  rw [hdv]
  split_ifs <;> omega

/-- `atoi` on text with no digit anywhere yields 0. -/
theorem atoi_no_digits (s : List Char) (h : ∀ c ∈ s, isDigitC c = false) : atoi s = 0 := by
  simp only [atoi]
  have hsub : ∀ c ∈ s.dropWhile isSpaceC, isDigitC c = false :=
    fun c hc => h c ((s.dropWhile_sublist isSpaceC).mem hc)
  have hhead : ∀ (l : List Char), (∀ c' ∈ l, isDigitC c' = false) →
      parseUDigits l 0 = (0, l) := by
    intro l hl
    refine parseUDigits_nodigit l 0 ?_
    intro c' hc'
    cases l with
    | nil => simp at hc'
    | cons a as =>
      simp only [List.head?_cons, Option.some.injEq] at hc'
      exact hc' ▸ hl a (by simp)
  have key : ∀ t : List Char, (∀ c ∈ t, isDigitC c = false) →
      (parseUDigits (scanSign t).2 0).1 = 0 := by
    intro t ht
    cases t with
    | nil => rfl
    | cons c cs =>
      have hcs : ∀ c' ∈ cs, isDigitC c' = false := fun c' hc' => ht c' (by simp [hc'])
      simp only [scanSign]
      split_ifs <;> simp [hhead cs hcs, hhead (c :: cs) ht]
  rw [key _ hsub]
  simp

/-! ## Record validity: the conditions under which the text codec is lossless -/

/-- A character that can sit inside a CSV field: not the separator, not a
line break, not NUL. -/
def validChar (c : Char) : Prop :=
  c ≠ ',' ∧ c ≠ '\n' ∧ c ≠ Char.ofNat 0

/-- A valid boat name: non-empty, within the 127-character buffer, made of
field characters, and not starting with white space (the loader's leading
`" "` directive would strip it). -/
def validName (n : List Char) : Prop :=
  n ≠ [] ∧ n.length ≤ MAX_NAME - 1 ∧ (∀ c ∈ n, validChar c) ∧
    (∀ c, n.head? = some c → isSpaceC c = false)

/-- A currency amount exactly representable in cents, as every amount
produced by the program's own arithmetic is. -/
def validOwed (q : ℚ) : Prop :=
  ∃ k : ℤ, q = (k : ℚ) / 100

/-- The location detail agrees with the location type and its payload fits
its field. -/
def validDetail : LocationType → LocationDetail → Prop
  | .SLIP, .slipNumber _ => True
  | .LAND, .bayLetter c => validChar c
  | .TRAILOR, .licenseTag tag => tag ≠ [] ∧ tag.length ≤ 31 ∧ ∀ c ∈ tag, validChar c
  | .STORAGE, .storageNum _ => True
  | _, _ => False

/-- A boat whose serialized line the loader parses back exactly. -/
def validBoat (b : Boat) : Prop :=
  validName b.name ∧ validDetail b.locType b.detail ∧ validOwed b.amountOwed

instance : DecidablePred validChar := fun c =>
  inferInstanceAs (Decidable (c ≠ ',' ∧ c ≠ '\n' ∧ c ≠ Char.ofNat 0))

/-! ## The `%.2f` / `%lf` round trip -/

theorem pad2_all_digits (m : Nat) : ∀ c ∈ pad2 m, isDigitC c = true := by
  unfold pad2
  split_ifs with h
  · intro c hc
    rcases List.mem_cons.mp hc with rfl | hc
    · decide
    · exact natToChars_all_digits m c hc
  · exact natToChars_all_digits m

theorem natToChars_length_one {m : Nat} (h : m < 10) : (natToChars m).length = 1 := by
  rw [natToChars_eq]
  simp [h]

theorem pad2_length {m : Nat} (h : m < 100) : (pad2 m).length = 2 := by
  unfold pad2
  split_ifs with h10
  · simp [natToChars_length_one h10]
  · rw [natToChars_eq]
    have : ¬m < 10 := h10
    simp only [this, if_false, List.length_append, List.length_singleton]
    rw [natToChars_length_one (by omega : m / 10 < 10)]

theorem digitsVal_pad2 (m : Nat) : digitsVal (pad2 m) = m := by
  unfold pad2
  split_ifs with h
  · unfold digitsVal
    simp only [List.foldl_cons]
    have h0 : (0 : Nat) * 10 + ('0'.toNat - 48) = 0 := by decide
    rw [h0]
    exact digitsVal_natToChars m
  · exact digitsVal_natToChars m

/-- `scanFrac` consumes exactly the dot and cents that `formatFixed2`
printed. -/
theorem scanFrac_pad2 (m : Nat) (h : m < 100) :
    scanFrac ('.' :: pad2 m) = ((m, 2), []) := by
  simp only [scanFrac]
  rw [takeWhile_of_all _ (pad2_all_digits m), digitsVal_pad2, List.drop_length, pad2_length h]

theorem scanLf_formatFixed2 (q : ℚ) (k : ℤ) (hk : q = (k : ℚ) / 100) :
    scanLf (formatFixed2 q) = some (q, []) := by
  have hround : round (q * 100) = k := by
    rw [hk, div_mul_cancel₀ _ (by norm_num : (100 : ℚ) ≠ 0)]
    exact round_intCast k
  have hip : (natToChars (k.natAbs / 100) ++ '.' :: pad2 (k.natAbs % 100)).takeWhile isDigitC
      = natToChars (k.natAbs / 100) := by
    refine takeWhile_append_sat _ _ (natToChars_all_digits _) ?_
    intro c hc
    simp only [List.head?_cons, Option.some.injEq] at hc
    rw [← hc]
    decide
  have hdrop : (natToChars (k.natAbs / 100) ++ '.' :: pad2 (k.natAbs % 100)).drop
      (natToChars (k.natAbs / 100)).length = '.' :: pad2 (k.natAbs % 100) :=
    drop_append_len _ _
  have hfrac := scanFrac_pad2 (k.natAbs % 100) (Nat.mod_lt _ (by omega))
  have hipne : (natToChars (k.natAbs / 100)).isEmpty = false := by
    cases hnc : natToChars (k.natAbs / 100) with
    | nil => exact absurd hnc (natToChars_ne_nil _)
    | cons a l => rfl
  have hdv := digitsVal_natToChars (k.natAbs / 100)
  have hval : ((k.natAbs / 100 : ℕ) : ℚ) + ((k.natAbs % 100 : ℕ) : ℚ) / (10 : ℚ) ^ (2 : ℕ)
      = ((k.natAbs : ℕ) : ℚ) / 100 := by
    have h100 : ((10 : ℚ)) ^ (2 : ℕ) = 100 := by norm_num
    rw [h100]
    field_simp
    norm_cast
    omega
  unfold formatFixed2
  rw [hround]
  by_cases hq : q < 0
  · have hkneg : k < 0 := by
      by_contra hpos
      push_neg at hpos
      have h0 : (0 : ℚ) ≤ (k : ℚ) / 100 := by positivity
      rw [← hk] at h0
      exact absurd hq (not_lt.mpr h0)
    simp only [hq, if_true]
    simp only [scanLf]
    rw [dropWhile_cons_false _ (by decide)]
    have hsign : scanSign ('-' :: (natToChars (k.natAbs / 100) ++ '.' :: pad2 (k.natAbs % 100)))
        = (-1, natToChars (k.natAbs / 100) ++ '.' :: pad2 (k.natAbs % 100)) := by
      simp [scanSign]
    rw [hsign]
    dsimp only
    rw [hip, hdrop, hfrac]
    dsimp only
    simp only [hipne, Bool.false_eq_true, false_and, if_false]
    refine congrArg some (Prod.ext ?_ rfl)
    dsimp only
    rw [hdv, hval]
    have habs : ((k.natAbs : ℕ) : ℚ) = -(k : ℚ) := by
      rw [Int.cast_natAbs, abs_of_neg hkneg]
      push_cast
      ring
    rw [habs, hk]
    push_cast
    ring
  · have hknn : 0 ≤ k := by
      by_contra hneg
      push_neg at hneg
      have h0 : (k : ℚ) / 100 < 0 := by
        apply div_neg_of_neg_of_pos
        · exact_mod_cast hneg
        · norm_num
      rw [← hk] at h0
      exact absurd h0 hq
    simp only [hq, if_false]
    simp only [scanLf]
    cases hnc : natToChars (k.natAbs / 100) with
    | nil => exact absurd hnc (natToChars_ne_nil _)
    | cons d ds =>
      have hd : isDigitC d = true := natToChars_all_digits _ d (by rw [hnc]; simp)
      simp only [List.cons_append]
      rw [dropWhile_cons_false _ (digit_not_space hd)]
      have hsign : scanSign (d :: (ds ++ '.' :: pad2 (k.natAbs % 100)))
          = (1, d :: (ds ++ '.' :: pad2 (k.natAbs % 100))) := by
        simp only [scanSign]
        rw [if_neg (digit_ne_minus hd), if_neg (digit_ne_plus hd)]
      rw [hsign]
      dsimp only
      have hcons : d :: (ds ++ '.' :: pad2 (k.natAbs % 100))
          = natToChars (k.natAbs / 100) ++ '.' :: pad2 (k.natAbs % 100) := by
        rw [hnc]
        simp
      rw [hcons, hip, hdrop, hfrac]
      dsimp only
      simp only [hipne, Bool.false_eq_true, false_and, if_false]
      refine congrArg some (Prod.ext ?_ rfl)
      dsimp only
      rw [hdv, hval]
      have habs : ((k.natAbs : ℕ) : ℚ) = (k : ℚ) := by
        rw [Int.cast_natAbs, abs_of_nonneg hknn]
      rw [habs, hk]
      push_cast
      ring

/-! ## Parsing back a serialized line -/

theorem intToChars_ne_nil (z : Int) : intToChars z ≠ [] := by
  unfold intToChars
  split_ifs
  · simp
  · exact natToChars_ne_nil _

theorem intToChars_no_comma (z : Int) : ∀ c ∈ intToChars z, c ≠ ',' := by
  unfold intToChars
  split_ifs
  · intro c hc
    rcases List.mem_cons.mp hc with rfl | hc
    · decide
    · exact digit_ne_comma (natToChars_all_digits _ c hc)
  · exact fun c hc => digit_ne_comma (natToChars_all_digits _ c hc)

theorem intToChars_no_newline (z : Int) : ∀ c ∈ intToChars z, c ≠ '\n' := by
  unfold intToChars
  split_ifs
  · intro c hc
    rcases List.mem_cons.mp hc with rfl | hc
    · decide
    · exact digit_ne_newline (natToChars_all_digits _ c hc)
  · exact fun c hc => digit_ne_newline (natToChars_all_digits _ c hc)

theorem formatFixed2_no_newline (q : ℚ) : ∀ c ∈ formatFixed2 q, c ≠ '\n' := by
  have hbody : ∀ c ∈ natToChars ((round (q * 100)).natAbs / 100) ++
      '.' :: pad2 ((round (q * 100)).natAbs % 100), c ≠ '\n' := by
    intro c hc
    rcases List.mem_append.mp hc with hc | hc
    · exact digit_ne_newline (natToChars_all_digits _ c hc)
    · rcases List.mem_cons.mp hc with rfl | hc
      · decide
      · exact digit_ne_newline (pad2_all_digits _ c hc)
  unfold formatFixed2
  split_ifs
  · intro c hc
    rcases List.mem_cons.mp hc with rfl | hc
    · decide
    · exact hbody c hc
  · exact hbody

theorem parseLine_concrete (nm : List Char) (len : Int) (kw det : List Char) (q : ℚ) (k : ℤ)
    (hnm_ne : nm ≠ []) (hnm_comma : ∀ c ∈ nm, c ≠ ',')
    (hnm_head : ∀ c, nm.head? = some c → isSpaceC c = false)
    (hkw_ne : kw ≠ []) (hkw_comma : ∀ c ∈ kw, c ≠ ',')
    (hdet_ne : det ≠ []) (hdet_comma : ∀ c ∈ det, c ≠ ',')
    (hq : q = (k : ℚ) / 100) :
    parseLine (nm ++ ',' :: (intToChars len ++ ',' ::
        (kw ++ ',' :: (det ++ ',' :: formatFixed2 q))))
      = some (nm, len, kw, det, q) := by
  have hdw : (nm ++ ',' :: (intToChars len ++ ',' ::
      (kw ++ ',' :: (det ++ ',' :: formatFixed2 q)))).dropWhile isSpaceC
      = nm ++ ',' :: (intToChars len ++ ',' ::
        (kw ++ ',' :: (det ++ ',' :: formatFixed2 q))) := by
    cases hc : nm with
    | nil => exact absurd hc hnm_ne
    | cons c nm' =>
      simp only [List.cons_append]
      exact dropWhile_cons_false _ (hnm_head c (by rw [hc]; rfl))
  have h1 := scanField_append nm (intToChars len ++ ',' ::
    (kw ++ ',' :: (det ++ ',' :: formatFixed2 q))) hnm_ne hnm_comma
  have h2 := scanInt_append len (',' :: (kw ++ ',' :: (det ++ ',' :: formatFixed2 q)))
    (by
      intro c hc
      simp only [List.head?_cons, Option.some.injEq] at hc
      rw [← hc]
      decide)
  have h3 := scanField_append kw (det ++ ',' :: formatFixed2 q) hkw_ne hkw_comma
  have h4 := scanField_append det (formatFixed2 q) hdet_ne hdet_comma
  have h5 := scanLf_formatFixed2 q k hq
  simp [parseLine, hdw, h1, h2, h3, h4, h5, expectComma]

theorem take_small {α : Type} (l : List α) (n : Nat) (h : l.length ≤ n) : l.take n = l :=
  List.take_of_length_le h

theorem parseBoatLine_serializeBoat (b : Boat) (hb : validBoat b) :
    parseBoatLine (serializeBoat b) = some b := by
  obtain ⟨nm, ln, lt, dt, ow⟩ := b
  obtain ⟨⟨hn_ne, hn_len, hn_chars, hn_head⟩, hdet, k, hk⟩ := hb
  have hn_comma : ∀ c ∈ nm, c ≠ ',' := fun c hc => (hn_chars c hc).1
  have hn_take : nm.take (MAX_NAME - 1) = nm := take_small nm _ hn_len
  cases lt with
  | SLIP =>
    cases dt with
    | slipNumber n =>
      have hline : serializeBoat ⟨nm, ln, .SLIP, .slipNumber n, ow⟩
          = nm ++ ',' :: (intToChars ln ++ ',' ::
            (['s', 'l', 'i', 'p'] ++ ',' :: (intToChars n ++ ',' :: formatFixed2 ow))) := by
        simp [serializeBoat, detailSlipNum]
      unfold parseBoatLine
      rw [hline, parseLine_concrete nm ln ['s', 'l', 'i', 'p'] (intToChars n) ow k
        hn_ne hn_comma hn_head (by simp) (by decide)
        (intToChars_ne_nil n) (intToChars_no_comma n) hk]
      have hplt : parseLocationType ['s', 'l', 'i', 'p'] = .SLIP := by decide
      simp [createBoat, hplt, atoi_intToChars, hn_take]
    | bayLetter c => simp [validDetail] at hdet
    | licenseTag t => simp [validDetail] at hdet
    | storageNum n => simp [validDetail] at hdet
  | LAND =>
    cases dt with
    | slipNumber n => simp [validDetail] at hdet
    | bayLetter c =>
      have hline : serializeBoat ⟨nm, ln, .LAND, .bayLetter c, ow⟩
          = nm ++ ',' :: (intToChars ln ++ ',' ::
            (['l', 'a', 'n', 'd'] ++ ',' :: ([c] ++ ',' :: formatFixed2 ow))) := by
        simp [serializeBoat, detailBay]
      unfold parseBoatLine
      rw [hline, parseLine_concrete nm ln ['l', 'a', 'n', 'd'] [c] ow k
        hn_ne hn_comma hn_head (by simp) (by decide)
        (by simp) (by simpa using hdet.1) hk]
      have hplt : parseLocationType ['l', 'a', 'n', 'd'] = .LAND := by decide
      simp [createBoat, hplt, hn_take]
    | licenseTag t => simp [validDetail] at hdet
    | storageNum n => simp [validDetail] at hdet
  | TRAILOR =>
    cases dt with
    | slipNumber n => simp [validDetail] at hdet
    | bayLetter c => simp [validDetail] at hdet
    | licenseTag t =>
      obtain ⟨ht_ne, ht_len, ht_chars⟩ := hdet
      have hline : serializeBoat ⟨nm, ln, .TRAILOR, .licenseTag t, ow⟩
          = nm ++ ',' :: (intToChars ln ++ ',' ::
            (['t', 'r', 'a', 'i', 'l', 'o', 'r'] ++ ',' :: (t ++ ',' :: formatFixed2 ow))) := by
        simp [serializeBoat, detailTag]
      unfold parseBoatLine
      rw [hline, parseLine_concrete nm ln ['t', 'r', 'a', 'i', 'l', 'o', 'r'] t ow k
        hn_ne hn_comma hn_head (by simp) (by decide)
        ht_ne (fun c hc => (ht_chars c hc).1) hk]
      have hplt : parseLocationType ['t', 'r', 'a', 'i', 'l', 'o', 'r'] = .TRAILOR := by decide
      simp [createBoat, hplt, hn_take, take_small t 31 ht_len]
    | storageNum n => simp [validDetail] at hdet
  | STORAGE =>
    cases dt with
    | slipNumber n => simp [validDetail] at hdet
    | bayLetter c => simp [validDetail] at hdet
    | licenseTag t => simp [validDetail] at hdet
    | storageNum n =>
      have hline : serializeBoat ⟨nm, ln, .STORAGE, .storageNum n, ow⟩
          = nm ++ ',' :: (intToChars ln ++ ',' ::
            (['s', 't', 'o', 'r', 'a', 'g', 'e'] ++ ',' :: (intToChars n ++ ',' :: formatFixed2 ow))) := by
        simp [serializeBoat, detailStorageNum]
      unfold parseBoatLine
      rw [hline, parseLine_concrete nm ln ['s', 't', 'o', 'r', 'a', 'g', 'e'] (intToChars n) ow k
        hn_ne hn_comma hn_head (by simp) (by decide)
        (intToChars_ne_nil n) (intToChars_no_comma n) hk]
      have hplt : parseLocationType ['s', 't', 'o', 'r', 'a', 'g', 'e'] = .STORAGE := by decide
      simp [createBoat, hplt, atoi_intToChars, hn_take]

/-! ## Save / load round trip -/

theorem no_newline_parts (nm kd : List Char) (ln : Int) (ow : ℚ)
    (h1 : ∀ c ∈ nm, c ≠ '\n') (h2 : ∀ c ∈ kd, c ≠ '\n') :
    ∀ c ∈ nm ++ ',' :: (intToChars ln ++ ',' :: (kd ++ ',' :: formatFixed2 ow)), c ≠ '\n' := by
  intro c hc
  rcases List.mem_append.mp hc with hc | hc
  · exact h1 c hc
  · rcases List.mem_cons.mp hc with rfl | hc
    · decide
    · rcases List.mem_append.mp hc with hc | hc
      · exact intToChars_no_newline ln c hc
      · rcases List.mem_cons.mp hc with rfl | hc
        · decide
        · rcases List.mem_append.mp hc with hc | hc
          · exact h2 c hc
          · rcases List.mem_cons.mp hc with rfl | hc
            · decide
            · exact formatFixed2_no_newline ow c hc

theorem serializeBoat_no_newline (b : Boat) (hb : validBoat b) :
    ∀ c ∈ serializeBoat b, c ≠ '\n' := by
  obtain ⟨nm, ln, lt, dt, ow⟩ := b
  obtain ⟨⟨hn_ne, hn_len, hn_chars, hn_head⟩, hdet, k, hk⟩ := hb
  have hnm : ∀ c ∈ nm, c ≠ '\n' := fun c hc => (hn_chars c hc).2.1
  simp only [serializeBoat]
  refine no_newline_parts nm _ ln ow hnm ?_
  cases lt with
  | SLIP =>
    intro c hc
    rcases List.mem_append.mp hc with hc | hc
    · exact (by decide : ∀ x ∈ ['s', 'l', 'i', 'p', ','], x ≠ '\n') c hc
    · exact intToChars_no_newline _ c hc
  | LAND =>
    cases dt with
    | bayLetter bc =>
      intro c hc
      rcases List.mem_append.mp hc with hc | hc
      · exact (by decide : ∀ x ∈ ['l', 'a', 'n', 'd', ','], x ≠ '\n') c hc
      · rcases List.mem_singleton.mp hc with rfl
        exact hdet.2.1
    | slipNumber n => simp [validDetail] at hdet
    | licenseTag t => simp [validDetail] at hdet
    | storageNum n => simp [validDetail] at hdet
  | TRAILOR =>
    cases dt with
    | licenseTag t =>
      intro c hc
      rcases List.mem_append.mp hc with hc | hc
      · exact (by decide : ∀ x ∈ ['t', 'r', 'a', 'i', 'l', 'o', 'r', ','], x ≠ '\n') c hc
      · exact (hdet.2.2 c (by simpa [detailTag] using hc)).2.1
    | slipNumber n => simp [validDetail] at hdet
    | bayLetter bc => simp [validDetail] at hdet
    | storageNum n => simp [validDetail] at hdet
  | STORAGE =>
    intro c hc
    rcases List.mem_append.mp hc with hc | hc
    · exact (by decide : ∀ x ∈ ['s', 't', 'o', 'r', 'a', 'g', 'e', ','], x ≠ '\n') c hc
    · exact intToChars_no_newline _ c hc

theorem splitLines_append (line : List Char) (rest : List Char)
    (h : ∀ c ∈ line, c ≠ '\n') :
    splitLines (line ++ '\n' :: rest) = line :: splitLines rest := by
  induction line with
  | nil => simp [splitLines]
  | cons c cs ih =>
    have hc : c ≠ '\n' := h c (by simp)
    have ih' := ih (fun x hx => h x (by simp [hx]))
    have heq : splitLines (c :: (cs ++ '\n' :: rest)) =
        match splitLines (cs ++ '\n' :: rest) with
        | [] => [[c]]
        | l :: ls => (c :: l) :: ls := by
      simp [splitLines, hc]
    rw [List.cons_append, heq, ih']

theorem loadCollect_serialized : ∀ (bs acc : List Boat),
    (∀ b ∈ bs, parseBoatLine (serializeBoat b) = some b) →
    acc.length + bs.length ≤ MAX_BOATS →
    loadCollect (bs.map serializeBoat ++ [[]]) acc = acc ++ bs := by
  intro bs
  induction bs with
  | nil =>
    intro acc _ _
    simp [loadCollect, show parseBoatLine [] = none from rfl]
  | cons b bs ih =>
    intro acc hparse hlen
    have hb : parseBoatLine (serializeBoat b) = some b := hparse b (by simp)
    simp only [List.length_cons] at hlen
    have hroom : acc.length < MAX_BOATS := by omega
    have hlen' : (acc ++ [b]).length + bs.length ≤ MAX_BOATS := by
      simp only [List.length_append, List.length_singleton]
      omega
    simp only [List.map_cons, List.cons_append, loadCollect, hb, hroom, if_true,
      List.append_eq]
    rw [ih (acc ++ [b]) (fun x hx => hparse x (by simp [hx])) hlen']
    simp

theorem splitLines_saveBoats : ∀ boats : List Boat, (∀ b ∈ boats, validBoat b) →
    splitLines ((boats.map (fun b => serializeBoat b ++ ['\n'])).foldr (· ++ ·) [])
      = boats.map serializeBoat ++ [[]] := by
  intro boats
  induction boats with
  | nil => intro _; rfl
  | cons b bs ih =>
    intro hv
    simp only [List.map_cons, List.foldr_cons]
    have hb : ∀ c ∈ serializeBoat b, c ≠ '\n' :=
      serializeBoat_no_newline b (hv b (by simp))
    have hshape : (serializeBoat b ++ ['\n']) ++
        ((bs.map (fun x => serializeBoat x ++ ['\n'])).foldr (· ++ ·) [])
        = serializeBoat b ++ '\n' ::
          ((bs.map (fun x => serializeBoat x ++ ['\n'])).foldr (· ++ ·) []) := by
      simp
    rw [hshape, splitLines_append _ _ hb, ih (fun x hx => hv x (by simp [hx]))]
    simp

/-- The round trip: loading the saved text yields, up to the re-sort, the
same list of boats. -/
theorem roundTrip_perm (m : BoatManager) (hlen : m.boats.length ≤ MAX_BOATS)
    (hvalid : ∀ b ∈ m.boats, validBoat b) :
    (loadFromCSV (saveToCSV m)).boats.Perm m.boats := by
  unfold loadFromCSV saveToCSV
  rw [splitLines_saveBoats m.boats hvalid]
  rw [loadCollect_serialized m.boats []
    (fun b hb => parseBoatLine_serializeBoat b (hvalid b hb)) (by simpa using hlen)]
  simpa using sortBoats_perm m.boats

/-! ## A line with fewer than five comma-separated fields never parses -/

theorem count_comma_cons_ne {c : Char} (cs : List Char) (h : c ≠ ',') :
    (c :: cs).count ',' = cs.count ',' := by
  simp [List.count_cons, h]

theorem count_comma_cons (cs : List Char) :
    (',' :: cs).count ',' = cs.count ',' + 1 := by
  simp [List.count_cons]

theorem count_comma_dropWhile (s : List Char) :
    (s.dropWhile isSpaceC).count ',' = s.count ',' := by
  induction s with
  | nil => rfl
  | cons c cs ih =>
    by_cases h : isSpaceC c = true
    · have hne : c ≠ ',' := by
        rintro rfl
        exact absurd h (by decide)
      rw [List.dropWhile_cons, if_pos h, ih, count_comma_cons_ne cs hne]
    · rw [List.dropWhile_cons, if_neg h]

theorem count_comma_scanSign (s : List Char) :
    ((scanSign s).2).count ',' = s.count ',' := by
  cases s with
  | nil => rfl
  | cons c cs =>
    simp only [scanSign]
    split_ifs with h1 h2
    · subst h1
      exact (count_comma_cons_ne cs (by decide)).symm
    · subst h2
      exact (count_comma_cons_ne cs (by decide)).symm
    · rfl

theorem count_comma_parseUDigits (s : List Char) : ∀ acc : Nat,
    ((parseUDigits s acc).2).count ',' = s.count ',' := by
  induction s with
  | nil => intro acc; rfl
  | cons c cs ih =>
    intro acc
    by_cases h : isDigitC c = true
    · simp only [parseUDigits, h, if_true]
      rw [ih, count_comma_cons_ne cs (digit_ne_comma h)]
    · simp [parseUDigits, h]

theorem drop_takeWhile_len (p : Char → Bool) : ∀ s : List Char,
    s.drop (s.takeWhile p).length = s.dropWhile p := by
  intro s
  induction s with
  | nil => rfl
  | cons c cs ih =>
    by_cases h : p c = true <;>
      simp [List.takeWhile_cons, List.dropWhile_cons, h, ih]

theorem count_comma_dropWhile_digits (s : List Char) :
    ((s.dropWhile isDigitC)).count ',' = s.count ',' := by
  induction s with
  | nil => rfl
  | cons c cs ih =>
    by_cases h : isDigitC c = true
    · rw [List.dropWhile_cons, if_pos h, ih, count_comma_cons_ne cs (digit_ne_comma h)]
    · rw [List.dropWhile_cons, if_neg h]

theorem count_comma_scanUInt {s : List Char} {v : Nat} {r : List Char}
    (h : scanUInt s = some (v, r)) : r.count ',' = s.count ',' := by
  cases s with
  | nil => simp [scanUInt] at h
  | cons c cs =>
    simp only [scanUInt] at h
    by_cases hd : isDigitC c = true
    · rw [if_pos hd] at h
      have hr : r = (parseUDigits cs (c.toNat - 48)).2 :=
        (congrArg Prod.snd (Option.some.inj h)).symm
      rw [hr, count_comma_parseUDigits, count_comma_cons_ne cs (digit_ne_comma hd)]
    · rw [if_neg hd] at h
      exact absurd h (by simp)

theorem count_comma_scanField {s f r : List Char}
    (h : scanField s = some (f, r)) : r.count ',' ≤ s.count ',' := by
  simp only [scanField] at h
  split_ifs at h
  have hr := congrArg Prod.snd (Option.some.inj h)
  dsimp only at hr
  rw [← hr, drop_takeWhile_len]
  conv_rhs => rw [← List.takeWhile_append_dropWhile (p := fun c => decide (c ≠ ',')) (l := s)]
  rw [List.count_append]
  omega

theorem count_comma_scanInt {s : List Char} {z : Int} {r : List Char}
    (h : scanInt s = some (z, r)) : r.count ',' = s.count ',' := by
  simp only [scanInt] at h
  cases hu : scanUInt (scanSign (s.dropWhile isSpaceC)).2 with
  | none => rw [hu] at h; exact absurd h (by simp)
  | some p =>
    rw [hu] at h
    simp only [Option.map_some'] at h
    have hr : r = p.2 := (congrArg Prod.snd (Option.some.inj h)).symm
    rw [hr]
    obtain ⟨v, r'⟩ := p
    rw [count_comma_scanUInt hu, count_comma_scanSign, count_comma_dropWhile]

theorem count_comma_scanFrac (s : List Char) :
    ((scanFrac s).2).count ',' = s.count ',' := by
  cases s with
  | nil => rfl
  | cons c cs =>
    by_cases h : c = '.'
    · subst h
      simp only [scanFrac]
      rw [drop_takeWhile_len, count_comma_dropWhile_digits,
        count_comma_cons_ne cs (by decide)]
    · have : scanFrac (c :: cs) = ((0, 0), c :: cs) := by
        simp [scanFrac, h]
      rw [this]

theorem count_comma_scanLf {s : List Char} {q : ℚ} {r : List Char}
    (h : scanLf s = some (q, r)) : r.count ',' = s.count ',' := by
  simp only [scanLf] at h
  split_ifs at h
  have hr := congrArg Prod.snd (Option.some.inj h)
  dsimp only at hr
  rw [← hr, count_comma_scanFrac, drop_takeWhile_len, count_comma_dropWhile_digits,
    count_comma_scanSign, count_comma_dropWhile]

theorem expectComma_eq_some {s r : List Char} (h : expectComma s = some r) :
    s = ',' :: r := by
  cases s with
  | nil => simp [expectComma] at h
  | cons c cs =>
    by_cases hc : c = ','
    · subst hc
      simp only [expectComma, Option.some.injEq] at h
      rw [h]
    · have : expectComma (c :: cs) = none := by simp [expectComma, hc]
      rw [this] at h
      exact absurd h (by simp)

/-- A successful five-field parse needs at least four commas in the line. -/
theorem parseLine_comma_count {line : List Char}
    {fields : List Char × Int × List Char × List Char × ℚ}
    (h : parseLine line = some fields) : 4 ≤ line.count ',' := by
  simp only [parseLine, bind, Option.bind_eq_some] at h
  obtain ⟨⟨nm, r1⟩, hs1, h⟩ := h
  obtain ⟨r2, hs2, h⟩ := h
  obtain ⟨⟨len, r3⟩, hs3, h⟩ := h
  obtain ⟨r4, hs4, h⟩ := h
  obtain ⟨⟨loc, r5⟩, hs5, h⟩ := h
  obtain ⟨r6, hs6, h⟩ := h
  obtain ⟨⟨det, r7⟩, hs7, h⟩ := h
  obtain ⟨r8, hs8, h⟩ := h
  dsimp only at hs1 hs2 hs3 hs4 hs5 hs6 hs7 hs8
  have e1 : r1.count ',' ≤ line.count ',' := by
    have := count_comma_scanField hs1
    rw [count_comma_dropWhile] at this
    exact this
  have e2 := expectComma_eq_some hs2
  have e3 := count_comma_scanInt hs3
  have e4 := expectComma_eq_some hs4
  have e5 := count_comma_scanField hs5
  have e6 := expectComma_eq_some hs6
  have e7 := count_comma_scanField hs7
  have e8 := expectComma_eq_some hs8
  rw [e2, count_comma_cons] at e1
  rw [e4, count_comma_cons] at e3
  rw [e6, count_comma_cons] at e5
  rw [e8, count_comma_cons] at e7
  omega

theorem parseBoatLine_of_few_commas {line : List Char} (h : line.count ',' < 4) :
    parseBoatLine line = none := by
  cases hp : parseLine line with
  | none => simp [parseBoatLine, hp]
  | some fields => exact absurd (parseLine_comma_count hp) (by omega)

/-- A line the parser rejects is skipped: the load of the surrounding lines
is unchanged, wherever the bad line sits. -/
theorem loadCollect_skip (l1 l2 : List (List Char)) (line : List Char)
    (h : parseBoatLine line = none) : ∀ acc : List Boat,
    loadCollect (l1 ++ line :: l2) acc = loadCollect (l1 ++ l2) acc := by
  induction l1 with
  | nil =>
    intro acc
    simp [loadCollect, h]
  | cons x xs ih =>
    intro acc
    simp only [List.cons_append, loadCollect]
    cases hx : parseBoatLine x with
    | none => exact ih acc
    | some b =>
      by_cases hr : acc.length < MAX_BOATS
      · simp only [hr, if_true]
        exact ih (acc ++ [b])
      · simp only [hr, if_false]
        exact ih acc

/-! ## Sample data for the concrete instances -/

/-- The slip boat from the assignment's own example data. -/
def bigBrother : Boat :=
  ⟨("Big Brother").toList, 20, .SLIP, .slipNumber 27, 1200⟩

/-- A second sample record, kept on land. -/
def luckyDuck : Boat :=
  ⟨("Lucky Duck").toList, 18, .LAND, .bayLetter 'C', 45⟩

/-! ## The claims -/

/-- C1: `acceptPayment` fails `NotFound` exactly on stores with no
case-insensitive name match; on a match it fails `Overpayment` exactly when
the amount strictly exceeds the matched boat's balance, and otherwise
subtracts the amount from that boat in place — so paying exactly the owed
amount succeeds and zeroes the balance; on either failure the store is
returned unchanged. -/
theorem C1_acceptPayment_spec (m : BoatManager) (name : List Char) (amt : ℚ) :
    ((∀ b ∈ m.boats, caseInsensitiveCompare b.name name ≠ 0) →
      acceptPayment m name amt = (.notFound, m)) ∧
    (∀ i b, findBoatIndex m name = some i → m.boats[i]? = some b →
      (amt > b.amountOwed → acceptPayment m name amt = (.overpayment, m)) ∧
      (amt ≤ b.amountOwed → acceptPayment m name amt
        = (.paid, ⟨m.boats.set i { b with amountOwed := b.amountOwed - amt }⟩)) ∧
      acceptPayment m name b.amountOwed
        = (.paid, ⟨m.boats.set i { b with amountOwed := 0 }⟩)) := by
  constructor
  · intro h
    have hnone : findBoatIndex m name = none := (findIdxFrom_eq_none_iff m.boats name).mpr h
    simp [acceptPayment, hnone]
  · intro i b hfind hget
    refine ⟨?_, ?_, ?_⟩
    · intro hover
      simp [acceptPayment, hfind, hget, hover]
    · intro hle
      simp only [acceptPayment, hfind, hget]
      rw [if_neg (not_lt.mpr hle)]
    · simp only [acceptPayment, hfind, hget]
      rw [if_neg (lt_irrefl b.amountOwed)]
      simp [sub_self]

theorem C1_acceptPayment_spec_witness :
    findBoatIndex ⟨[bigBrother]⟩ (("BIG BROTHER").toList) = some 0 ∧
    acceptPayment ⟨[bigBrother]⟩ (("BIG BROTHER").toList) 1200
      = (.paid, ⟨[bigBrother].set 0 { bigBrother with amountOwed := 0 }⟩) ∧
    acceptPayment ⟨[bigBrother]⟩ (("BIG BROTHER").toList) 1300
      = (.overpayment, ⟨[bigBrother]⟩) := by
  refine ⟨by decide, ?_, ?_⟩
  · have h := (C1_acceptPayment_spec ⟨[bigBrother]⟩ (("BIG BROTHER").toList) 1200).2
      0 bigBrother (by decide) (by decide)
    exact h.2.2
  · have h := (C1_acceptPayment_spec ⟨[bigBrother]⟩ (("BIG BROTHER").toList) 1300).2
      0 bigBrother (by decide) (by decide)
    exact h.1 (by decide)

/-- C2: one `monthlyUpdate` call adds `rate(locationKind) * length` to every
boat's balance, with the rate table Slip = 12.50, Land = 14.00,
Trailor = 25.00, Storage = 11.20 per foot, and it has no failure mode; in
particular a slip boat of length 20 owing 1200.00 owes exactly 1450.00
afterward. -/
theorem C2_monthlyUpdate_spec :
    (∀ m : BoatManager, (monthlyUpdate m).boats = m.boats.map (fun b =>
      { b with amountOwed := b.amountOwed +
        (match b.locType with
         | .SLIP => (12.50 : ℚ)
         | .LAND => (14.00 : ℚ)
         | .TRAILOR => (25.00 : ℚ)
         | .STORAGE => (11.20 : ℚ)) * b.length })) ∧
    (monthlyUpdate ⟨[⟨("Big Brother").toList, 20, .SLIP, .slipNumber 27, 1200.00⟩]⟩).boats
      = [⟨("Big Brother").toList, 20, .SLIP, .slipNumber 27, 1450.00⟩] := by
  constructor
  · intro m
    simp only [monthlyUpdate]
    refine List.map_congr_left ?_
    intro b _
    cases hlt : b.locType <;>
      simp [hlt, MONTH_SLIP, MONTH_LAND, MONTH_TRAILOR, MONTH_STORAGE]
  · simp only [monthlyUpdate, MONTH_SLIP, List.map_cons, List.map_nil]
    norm_num

/-- C3: for a store of valid records (names that are non-empty, fit the
buffer, contain no comma/newline/NUL and do not start with white space;
details matching their kind and fitting their fields; amounts that are a
whole number of cents) within the capacity bound, loading the saved text
yields a store holding exactly the same multiset of records — the same
records with the same field values, independent of insertion order. -/
theorem C3_roundTrip (m : BoatManager) (hlen : m.boats.length ≤ 120)
    (hvalid : ∀ b ∈ m.boats, validBoat b) :
    (loadFromCSV (saveToCSV m)).boats.Perm m.boats :=
  roundTrip_perm m hlen hvalid

theorem C3_roundTrip_witness :
    (loadFromCSV (saveToCSV ⟨[bigBrother, luckyDuck]⟩)).boats.Perm [bigBrother, luckyDuck] := by
  refine C3_roundTrip ⟨[bigBrother, luckyDuck]⟩ (by decide) ?_
  intro b hb
  rcases List.mem_cons.mp hb with rfl | hb
  · exact ⟨⟨by decide, by decide, by decide, by decide⟩, trivial, 120000, by norm_num [bigBrother]⟩
  · rcases List.mem_singleton.mp hb with rfl
    exact ⟨⟨by decide, by decide, by decide, by decide⟩,
      (by decide : validChar 'C'), 4500, by norm_num [luckyDuck]⟩

/-- C5: `addBoat` fails `Full` and returns the store unchanged exactly when
the store already holds the `MAX_BOATS = 120` records (for any store within
the bound); below the bound it succeeds for every record — in particular a
record whose name compares equal to a stored one is never rejected — and
the resulting store is a permutation of the old records plus the new one,
listed in comparator order. -/
theorem C5_addBoat_spec (m : BoatManager) (b : Boat) (hinv : m.boats.length ≤ 120) :
    ((addBoat m b).1 = .full ↔ m.boats.length = 120) ∧
    ((addBoat m b).1 = .full → (addBoat m b).2 = m) ∧
    (m.boats.length < 120 →
      (addBoat m b).1 = .added ∧
      (addBoat m b).2.boats.Perm (m.boats ++ [b]) ∧
      List.Pairwise boatLe (addBoat m b).2.boats) := by
  have hM : MAX_BOATS = 120 := rfl
  by_cases h : m.boats.length ≥ MAX_BOATS
  · have h120 : m.boats.length = 120 := by omega
    have ha : addBoat m b = (.full, m) := by
      simp [addBoat, h]
    rw [ha]
    exact ⟨⟨fun _ => h120, fun _ => rfl⟩, fun _ => rfl,
      fun hlt => ((by omega : False)).elim⟩
  · have hlt : m.boats.length < 120 := by omega
    have ha : addBoat m b = (.added, ⟨sortBoatsByName (m.boats ++ [b])⟩) := by
      simp [addBoat, h]
    rw [ha]
    refine ⟨⟨fun hfa => absurd hfa (by simp), fun h120 => ((by omega : False)).elim⟩,
      fun hfa => absurd hfa (by simp), ?_⟩
    intro _
    exact ⟨rfl, sortBoats_perm _, sortBoats_sorted _⟩

theorem C5_addBoat_spec_witness :
    (addBoat ⟨[bigBrother]⟩ bigBrother).1 = .added ∧
    (addBoat ⟨[bigBrother]⟩ bigBrother).2.boats.Perm ([bigBrother] ++ [bigBrother]) ∧
    List.Pairwise boatLe (addBoat ⟨[bigBrother]⟩ bigBrother).2.boats := by
  have h := (C5_addBoat_spec ⟨[bigBrother]⟩ bigBrother (by decide)).2.2 (by decide)
  exact ⟨h.1, h.2.1, h.2.2⟩

/-- C6: `findBoatIndex` is a case-insensitive exact-match lookup returning
the first matching position in the store's current order (`none` exactly
when nothing matches), and `removeBoat` deletes that first match — so a
removal by a name differing from the stored one only in letter case
succeeds. -/
theorem C6_find_first_match (m : BoatManager) (name : List Char) :
    (findBoatIndex m name = none ↔
      ∀ b ∈ m.boats, caseInsensitiveCompare b.name name ≠ 0) ∧
    (∀ i, findBoatIndex m name = some i →
      ∃ b, m.boats[i]? = some b ∧ caseInsensitiveCompare b.name name = 0 ∧
        (∀ j, j < i → ∀ b', m.boats[j]? = some b' →
          caseInsensitiveCompare b'.name name ≠ 0) ∧
        removeBoat m name = (.removed, ⟨sortBoatsByName (m.boats.eraseIdx i)⟩)) := by
  constructor
  · exact findIdxFrom_eq_none_iff m.boats name
  · intro i h
    obtain ⟨b, h1, h2, h3⟩ := findIdxFrom_eq_some m.boats name i h
    exact ⟨b, h1, h2, h3, by simp [removeBoat, h]⟩

theorem C6_find_first_match_witness :
    findBoatIndex ⟨[bigBrother]⟩ (("BIG BROTHER").toList) = some 0 ∧
    removeBoat ⟨[bigBrother]⟩ (("BIG BROTHER").toList) = (.removed, ⟨[]⟩) := by
  refine ⟨by decide, ?_⟩
  obtain ⟨b, _, _, _, h4⟩ :=
    (C6_find_first_match ⟨[bigBrother]⟩ (("BIG BROTHER").toList)).2 0 (by decide)
  rw [h4]
  decide

/-- C7: a line offering fewer than five comma-separated fields (fewer than
four commas) is discarded by the loader — no record is produced and the
surrounding lines load exactly as if the bad line were absent — and the
two-line source with one well-formed line and one three-field line loads to
a store with exactly one record. -/
theorem C7_malformed_line_skipped (l1 l2 : List (List Char)) (line : List Char)
    (acc : List Boat) (hfields : line.count ',' + 1 < 5) :
    loadCollect (l1 ++ line :: l2) acc = loadCollect (l1 ++ l2) acc ∧
    (loadFromCSV (("Big Brother,20,slip,27,1450.00\nFoo,10,slip\n").toList)).boats.length
      = 1 := by
  refine ⟨loadCollect_skip l1 l2 line (parseBoatLine_of_few_commas (by omega)) acc, ?_⟩
  decide

theorem C7_malformed_line_skipped_witness :
    (("Foo,10,slip").toList.count ',' + 1 < 5) ∧
    loadCollect ([] ++ ("Foo,10,slip").toList :: []) []
      = loadCollect ([] ++ []) [] := by
  refine ⟨by decide, ?_⟩
  exact (C7_malformed_line_skipped [] [] (("Foo,10,slip").toList) [] (by decide)).1

/-- C8: `parseLocationType` maps any unrecognized location word to `SLIP`
instead of failing, a five-field line always produces a record whatever its
kind word says, and parsing `"Foo,10,submarine,5,0.00"` yields a record
with location kind `SLIP`. -/
theorem C8_unknown_kind_slip (w : List Char) :
    (((w.take 31).map tolowerChar ≠ ['s', 'l', 'i', 'p'] ∧
      (w.take 31).map tolowerChar ≠ ['l', 'a', 'n', 'd'] ∧
      (w.take 31).map tolowerChar ≠ ['t', 'r', 'a', 'i', 'l', 'o', 'r'] ∧
      (w.take 31).map tolowerChar ≠ ['s', 't', 'o', 'r', 'a', 'g', 'e']) →
      parseLocationType w = .SLIP) ∧
    (∀ (line nm : List Char) (len : Int) (loc det : List Char) (ow : ℚ),
      parseLine line = some (nm, len, loc, det, ow) →
      parseBoatLine line = some (createBoat nm len (parseLocationType loc) det ow)) ∧
    (loadFromCSV (("Foo,10,submarine,5,0.00\n").toList)).boats.map Boat.locType
      = [.SLIP] := by
  refine ⟨?_, ?_, by decide⟩
  · intro ⟨h1, h2, h3, h4⟩
    simp only [parseLocationType]
    split_ifs <;> rfl
  · intro line nm len loc det ow hline
    simp [parseBoatLine, hline]

theorem C8_unknown_kind_slip_witness :
    ((("submarine").toList.take 31).map tolowerChar ≠ ['s', 'l', 'i', 'p'] ∧
      (("submarine").toList.take 31).map tolowerChar ≠ ['l', 'a', 'n', 'd'] ∧
      (("submarine").toList.take 31).map tolowerChar ≠ ['t', 'r', 'a', 'i', 'l', 'o', 'r'] ∧
      (("submarine").toList.take 31).map tolowerChar ≠ ['s', 't', 'o', 'r', 'a', 'g', 'e']) ∧
    parseLocationType (("submarine").toList) = .SLIP := by
  refine ⟨by decide, ?_⟩
  exact (C8_unknown_kind_slip (("submarine").toList)).1 (by decide)

/-- C9: `createBoat` interprets the detail text by kind — `atoi` integer
conversion for `SLIP` and `STORAGE` (text without any digit degrades to 0
and the record is still produced), the first character for `LAND`, and the
text truncated to 31 bytes for `TRAILOR`. -/
theorem C9_detail_interpretation (name : List Char) (len : Int) (d : List Char) (ow : ℚ) :
    (createBoat name len .SLIP d ow).detail = .slipNumber (atoi d) ∧
    (createBoat name len .STORAGE d ow).detail = .storageNum (atoi d) ∧
    ((∀ c ∈ d, isDigitC c = false) → atoi d = 0) ∧
    (createBoat name len .LAND d ow).detail = .bayLetter (d.headD (Char.ofNat 0)) ∧
    (createBoat name len .TRAILOR d ow).detail = .licenseTag (d.take 31) :=
  ⟨rfl, rfl, atoi_no_digits d, rfl, rfl⟩

theorem C9_detail_interpretation_witness :
    (createBoat (("Foo").toList) 10 .SLIP (("submarine").toList) 0).detail
      = .slipNumber (atoi (("submarine").toList)) ∧
    atoi (("submarine").toList) = 0 := by
  have h := C9_detail_interpretation (("Foo").toList) 10 (("submarine").toList) 0
  exact ⟨h.1, h.2.2.1 (by decide)⟩

/-- C10: `acceptPayment` never validates the sign of the amount: a negative
amount against a boat with a non-negative balance always succeeds (the
overpayment check compares with strict greater-than, which a negative
amount never trips) and strictly increases the balance, leaving it at
`amountOwed - amount`. -/
theorem C10_negative_payment (m : BoatManager) (name : List Char) (amt : ℚ)
    (i : Nat) (b : Boat)
    (hfind : findBoatIndex m name = some i) (hget : m.boats[i]? = some b)
    (how : 0 ≤ b.amountOwed) (hamt : amt < 0) :
    acceptPayment m name amt
      = (.paid, ⟨m.boats.set i { b with amountOwed := b.amountOwed - amt }⟩) ∧
    b.amountOwed < b.amountOwed - amt := by
  constructor
  · simp only [acceptPayment, hfind, hget]
    rw [if_neg (not_lt.mpr (le_of_lt (lt_of_lt_of_le hamt how)))]
  · linarith

theorem C10_negative_payment_witness :
    acceptPayment ⟨[bigBrother]⟩ (("Big Brother").toList) (-50)
      = (.paid, ⟨[bigBrother].set 0
          { bigBrother with amountOwed := bigBrother.amountOwed - (-50) }⟩) ∧
    bigBrother.amountOwed < bigBrother.amountOwed - (-50) :=
  C10_negative_payment ⟨[bigBrother]⟩ (("Big Brother").toList) (-50) 0 bigBrother
    (by decide) (by decide) (by decide) (by decide)

end Marina
